import Mathlib

-- Verification of the packnback asymcrypt/tweetnacl framing layer.
-- Shallow embedding: byte streams are `List Nat` (each element a byte value,
-- well-formedness `< 256` stated where it matters), machine u16 arithmetic is
-- Nat with explicit `% 65536`, readers are list-backed (a read returns as many
-- bytes as are available, up to the buffer capacity), writers accumulate a
-- `List Nat`.  The NaCl primitive provider is external to the repository; the
-- sealing primitive is therefore a function parameter `box_` constrained by
-- the provider contract stated in the spec, with an executable model instance
-- `mBox`/`mOpen` for concrete evaluation.

namespace Packnback

-- Constants from src/rust/tweetnacl/src/lib.rs (NaCl binding constants).
abbrev READ_SZ : Nat := 16384
abbrev CRYPTO_BOX_ZEROBYTES : Nat := 32
abbrev CRYPTO_BOX_BOXZEROBYTES : Nat := 16
abbrev CRYPTO_BOX_NONCEBYTES : Nat := 24
abbrev CRYPTO_BOX_PUBLICKEYBYTES : Nat := 32
abbrev CRYPTO_BOX_SECRETKEYBYTES : Nat := 32
abbrev CRYPTO_SIGN_PUBLICKEYBYTES : Nat := 32
abbrev CRYPTO_SIGN_SECRETKEYBYTES : Nat := 64

-- Constants from src/rust/asymcrypt/src/lib.rs.
abbrev BUF_SZ : Nat := READ_SZ + CRYPTO_BOX_ZEROBYTES + 2
abbrev RECORD_SZ : Nat := BUF_SZ - CRYPTO_BOX_BOXZEROBYTES
abbrev MAGIC_LEN : Nat := 9
abbrev KEYHEADER : Nat := 0
abbrev PUBKEYHEADER : Nat := 1
abbrev SIGNATUREHEADER : Nat := 2
abbrev CIPHERTEXTHEADER : Nat := 3
abbrev HEADEREND : Nat := 4

-- The 9 ASCII bytes of the magic constant string used by the header codec.
def magic_bytes : List Nat := [97, 115, 121, 109, 99, 114, 121, 112, 116]

-- Error taxonomy from src/rust/asymcrypt/src/lib.rs (`AsymcryptError`).
-- `IOError` stands for any wrapped I/O failure (for a list-backed reader the
-- only one that arises is end-of-stream from `read_exact`).
inductive AsymcryptError where
  | InvalidDataError
  | UnsupportedVersionError
  | UnexpectedDataTypeError
  | DecryptKeyMismatchError
  | SignatureKeyMismatchError
  | SignatureFailedError
  | CorruptOrTamperedDataError
  | IOError
deriving DecidableEq

-- `u16_be_bytes` from the source: big-endian bytes of a u16 value.
-- `(v & 0xff00) >> 8` and `v & 0xff` on a u16 are `(v % 65536) / 256` and
-- `v % 256` on Nat.
def u16_be_bytes (v : Nat) : Nat × Nat := ((v % 65536) / 256, v % 256)

def u16_be_list (v : Nat) : List Nat := [(u16_be_bytes v).1, (u16_be_bytes v).2]

-- `be_bytes_to_u16` from the source: `((hi as u16) << 8) | (lo as u16)`;
-- on bytes (< 256) this is `hi * 256 + lo`.
def be_bytes_to_u16 (hi lo : Nat) : Nat := (hi % 256) * 256 + (lo % 256)

-- `u16_to_header_type` from the source.
def u16_to_header_type (t : Nat) : Option Nat :=
  if KEYHEADER ≤ t ∧ t < HEADEREND then some t else none

-- `write_header` from the source, as the byte sequence it emits:
-- magic, then version 2 big-endian, then the type tag big-endian.
def write_header (val_type : Nat) : List Nat :=
  magic_bytes ++ u16_be_list 2 ++ u16_be_list val_type

-- `read_header` from the source over a list-backed reader: returns the parsed
-- type tag together with the rest of the stream.  A `read_exact` on a stream
-- that is too short fails with the wrapped I/O error.
def read_header (s : List Nat) : Except AsymcryptError (Nat × List Nat) :=
  if s.length < MAGIC_LEN then .error .IOError
  else if s.take MAGIC_LEN ≠ magic_bytes then .error .InvalidDataError
  else if s.length < MAGIC_LEN + 4 then .error .IOError
  else if be_bytes_to_u16 (s.getD 9 0) (s.getD 10 0) = 2 then
    match u16_to_header_type (be_bytes_to_u16 (s.getD 11 0) (s.getD 12 0)) with
    | some t => .ok (t, s.drop (MAGIC_LEN + 4))
    | none => .error .InvalidDataError
  else .error .UnsupportedVersionError

-- `expect_header` from the source.
def expect_header (s : List Nat) (val_type : Nat) : Except AsymcryptError (List Nat) :=
  match read_header s with
  | .error e => .error e
  | .ok (t, rest) => if t = val_type then .ok rest else .error .UnexpectedDataTypeError

-- `std::io::Read::read_exact` over a list-backed reader: take exactly `n`
-- bytes or fail with the wrapped I/O (end-of-stream) error.
def read_exact (s : List Nat) (n : Nat) : Except AsymcryptError (List Nat × List Nat) :=
  if s.length < n then .error .IOError else .ok (s.take n, s.drop n)

-- `Key` from the source: one box keypair and one sign keypair, each field a
-- fixed-width byte array (widths stated as hypotheses where they matter).
structure Key where
  box_pk : List Nat
  box_sk : List Nat
  sign_pk : List Nat
  sign_sk : List Nat
deriving DecidableEq

-- `Key::write` from the source: header, then the four fields in order.
def Key.write (k : Key) : List Nat :=
  write_header KEYHEADER ++ k.box_pk ++ k.box_sk ++ k.sign_pk ++ k.sign_sk

-- `Key::read_boxed_from` from the source: expect the Key header, then read
-- the four fixed-width fields in the same order.
def Key.read_boxed_from (s : List Nat) : Except AsymcryptError Key := do
  let r ← expect_header s KEYHEADER
  let (bpk, r1) ← read_exact r CRYPTO_BOX_PUBLICKEYBYTES
  let (bsk, r2) ← read_exact r1 CRYPTO_BOX_SECRETKEYBYTES
  let (spk, r3) ← read_exact r2 CRYPTO_SIGN_PUBLICKEYBYTES
  let (ssk, _r4) ← read_exact r3 CRYPTO_SIGN_SECRETKEYBYTES
  return { box_pk := bpk, box_sk := bsk, sign_pk := spk, sign_sk := ssk }

-- `CryptoBoxNonce::inc` from the source: add 1 to byte 0 with wrapping; keep
-- carrying into the next byte while the incremented byte wrapped to 0.
def nonce_inc : List Nat → List Nat
  | [] => []
  | b :: rest =>
    if (b + 1) % 256 = 0 then (b + 1) % 256 :: nonce_inc rest
    else (b + 1) % 256 :: rest

-- Little-endian value of a byte buffer (for stating counter semantics).
def le_val : List Nat → Nat
  | [] => 0
  | b :: rest => b + 256 * le_val rest

-- `impl Drop for CryptoBoxSk` from the source: the teardown routine replaces
-- the secret bytes with the all-zero array of the field's fixed width.
def crypto_box_sk_drop (_sk : List Nat) : List Nat :=
  List.replicate CRYPTO_BOX_SECRETKEYBYTES 0

-- `impl Drop for CryptoSignSk` from the source.
def crypto_sign_sk_drop (_sk : List Nat) : List Nat :=
  List.replicate CRYPTO_SIGN_SECRETKEYBYTES 0

-- Destruction of a `Key` bundle: Rust drops each field; the two secret fields
-- run the zeroizing teardown routines above, the public fields have no Drop.
def key_drop (k : Key) : Key :=
  { k with box_sk := crypto_box_sk_drop k.box_sk,
           sign_sk := crypto_sign_sk_drop k.sign_sk }

-- In-place write of `xs` into buffer `l` starting at index `i` (the effect of
-- the slice assignments in `encrypt`); positions outside `[i, i+xs.length)`
-- keep their previous contents.
def listWrite (l : List Nat) (i : Nat) (xs : List Nat) : List Nat :=
  l.take i ++ (xs ++ l.drop (i + xs.length))

-- The successive nonempty reads `read_exact_or_eof` delivers in `encrypt`'s
-- loop for a list-backed source: each read fills at most the `READ_SZ`-byte
-- capacity slice, so it returns `take READ_SZ` of what remains; a read of 0
-- bytes ends the loop.  Structural recursion over a fuel bound (any fuel
-- `≥ src.length` is exact; `chunksOf` below fixes `fuel = src.length`).
def chunksOfF : Nat → List Nat → List (List Nat)
  | 0, _ => []
  | fuel + 1, src =>
    if src = [] then []
    else src.take READ_SZ :: chunksOfF fuel (src.drop READ_SZ)

def chunksOf (src : List Nat) : List (List Nat) := chunksOfF src.length src

-- The plaintext buffer after one loop iteration of `encrypt`: the 2-byte
-- big-endian length written at offset `CRYPTO_BOX_ZEROBYTES`, the chunk after
-- it; all other positions (the 32 leading zeros required by the provider and
-- the slack beyond the chunk) keep the previous buffer contents.
def padRecord (buf c : List Nat) : List Nat :=
  listWrite buf CRYPTO_BOX_ZEROBYTES (u16_be_list c.length ++ c)

-- The loop of `encrypt` from the source, one iteration per nonempty read:
-- write the 2-byte big-endian length at offset 32 and the chunk after it
-- (bytes beyond the chunk keep the previous buffer contents), seal the whole
-- `BUF_SZ` buffer under the current nonce with `crypto_box`, emit the sealed
-- record with its leading `CRYPTO_BOX_BOXZEROBYTES` zero bytes stripped, then
-- advance the nonce and continue with the updated buffer.
def sealChunks (box_ : List Nat → List Nat → List Nat → List Nat → List Nat)
    (to_pk esk : List Nat) : List (List Nat) → List Nat → List Nat → List Nat
  | [], _, _ => []
  | c :: cs, buf, nonce =>
    let b := padRecord buf c
    (box_ b nonce to_pk esk).drop CRYPTO_BOX_BOXZEROBYTES
      ++ sealChunks box_ to_pk esk cs b (nonce_inc nonce)

-- `encrypt` from the source.  The sealing primitive `box_ m n pk sk` is the
-- external provider's `crypto_box`; the freshly generated ephemeral keypair
-- and the random initial nonce are explicit inputs (the random draws).
def encrypt (box_ : List Nat → List Nat → List Nat → List Nat → List Nat)
    (in_data to_pk ephemeral_pk ephemeral_sk nonce0 : List Nat) : List Nat :=
  write_header CIPHERTEXTHEADER ++ ephemeral_pk ++ nonce0
    ++ sealChunks box_ to_pk ephemeral_sk (chunksOf in_data)
        (List.replicate BUF_SZ 0) nonce0

-- Declarative description of the successive plaintext buffer states of
-- `encrypt`'s loop: one padded record per chunk, each built on top of the
-- previous buffer state.
def paddedBufs (buf : List Nat) : List (List Nat) → List (List Nat)
  | [] => []
  | c :: cs =>
    let b := padRecord buf c
    b :: paddedBufs b cs

-- The nonces `encrypt` seals the successive chunks under: the fresh nonce
-- advanced by exactly one per sealed chunk.
def noncesFrom (n0 : List Nat) (k : Nat) : List (List Nat) :=
  (List.range k).map fun i => nonce_inc^[i] n0

-- Declarative description of the sealed records `encrypt` writes after the
-- header, ephemeral public key and nonce: the i-th record is the i-th padded
-- buffer sealed under the i-th nonce, with the provider's leading zero bytes
-- stripped.
def recordsOf (box_ : List Nat → List Nat → List Nat → List Nat → List Nat)
    (to_pk esk : List Nat) (src buf n0 : List Nat) : List (List Nat) :=
  List.zipWith (fun b nn => (box_ b nn to_pk esk).drop CRYPTO_BOX_BOXZEROBYTES)
    (paddedBufs buf (chunksOf src)) (noncesFrom n0 (chunksOf src).length)

-- `std::io::Write::write_all` against a sink that accepts `cap` more bytes
-- and then fails: on success the remaining capacity shrinks; on failure the
-- accepted prefix has still been written before the error surfaces.
def write_all_w (cap : Nat) (out data : List Nat) : Except (List Nat) (Nat × List Nat) :=
  if data.length ≤ cap then .ok (cap - data.length, out ++ data)
  else .error (out ++ data.take cap)

-- `encrypt`'s loop against the fallible sink model.
def encrypt_loop_w (box_ : List Nat → List Nat → List Nat → List Nat → List Nat)
    (to_pk esk : List Nat) :
    List (List Nat) → List Nat → List Nat → Nat → List Nat → Except (List Nat) (List Nat)
  | [], _, _, _, out => .ok out
  | c :: cs, buf, nonce, cap, out =>
    let b := padRecord buf c
    match write_all_w cap out ((box_ b nonce to_pk esk).drop CRYPTO_BOX_BOXZEROBYTES) with
    | .error w => .error w
    | .ok (cap2, out2) => encrypt_loop_w box_ to_pk esk cs b (nonce_inc nonce) cap2 out2

-- `encrypt` from the source against the fallible sink model, with the same
-- write granularity as the code: `write_header` issues one `write_all` for
-- the magic and one for the version-and-type bytes, then the ephemeral public
-- key, the nonce, and one `write_all` per sealed record.  The result is the
-- full written byte sequence, or on failure the bytes written before it.
def encrypt_w (box_ : List Nat → List Nat → List Nat → List Nat → List Nat)
    (in_data to_pk ephemeral_pk ephemeral_sk nonce0 : List Nat) (cap : Nat) :
    Except (List Nat) (List Nat) :=
  match write_all_w cap [] magic_bytes with
  | .error w => .error w
  | .ok (cap1, out1) =>
  match write_all_w cap1 out1 (u16_be_list 2 ++ u16_be_list CIPHERTEXTHEADER) with
  | .error w => .error w
  | .ok (cap2, out2) =>
  match write_all_w cap2 out2 ephemeral_pk with
  | .error w => .error w
  | .ok (cap3, out3) =>
  match write_all_w cap3 out3 nonce0 with
  | .error w => .error w
  | .ok (cap4, out4) =>
    encrypt_loop_w box_ to_pk ephemeral_sk (chunksOf in_data)
      (List.replicate BUF_SZ 0) nonce0 cap4 out4

-- Modelled from the spec: the DecryptionPipeline loop (§4.6), absent from the
-- sources.  Read one `RECORD_SZ`-byte ciphertext record (chunk capacity plus
-- framing and authentication overhead); end of stream at a record boundary is
-- a clean end, mid-record an InvalidData framing error; re-add the provider's
-- leading zero bytes, open under (ephemeral public key, recipient secret key,
-- current nonce), on failure CorruptOrTamperedData, on success emit exactly
-- the bytes counted by the embedded 2-byte big-endian length field, advance
-- the nonce, continue.  Structural recursion over fuel (any fuel ≥ stream
-- length is exact).
def decrypt_loop (open_ : List Nat → List Nat → List Nat → List Nat → Option (List Nat))
    (epk rsk : List Nat) : Nat → List Nat → List Nat → Except AsymcryptError (List Nat)
  | 0, s, _ => if s.length = 0 then .ok [] else .error .InvalidDataError
  | fuel + 1, s, nonce =>
    if s.length = 0 then .ok []
    else if s.length < RECORD_SZ then .error .InvalidDataError
    else
      match open_ (List.replicate CRYPTO_BOX_BOXZEROBYTES 0 ++ s.take RECORD_SZ)
          nonce epk rsk with
      | none => .error .CorruptOrTamperedDataError
      | some m =>
        match decrypt_loop open_ epk rsk fuel (s.drop RECORD_SZ) (nonce_inc nonce) with
        | .error e => .error e
        | .ok tail =>
          .ok ((m.drop (CRYPTO_BOX_ZEROBYTES + 2)).take
            (be_bytes_to_u16 (m.getD CRYPTO_BOX_ZEROBYTES 0)
              (m.getD (CRYPTO_BOX_ZEROBYTES + 1) 0)) ++ tail)

-- Modelled from the spec: the DecryptionPipeline entry point (§4.6), absent
-- from the sources.  Expect the Ciphertext header, read the sender's
-- ephemeral public key and the initial nonce, then run the record loop with
-- the recipient secret key.  `open_` is the provider's `crypto_box_open`.
def decrypt (open_ : List Nat → List Nat → List Nat → List Nat → Option (List Nat))
    (s rsk : List Nat) : Except AsymcryptError (List Nat) :=
  match expect_header s CIPHERTEXTHEADER with
  | .error e => .error e
  | .ok r =>
  match read_exact r CRYPTO_BOX_PUBLICKEYBYTES with
  | .error e => .error e
  | .ok (epk, r1) =>
  match read_exact r1 CRYPTO_BOX_NONCEBYTES with
  | .error e => .error e
  | .ok (n0, r2) => decrypt_loop open_ epk rsk r2.length r2 n0

-- Modelled from the spec: an executable instance of the external primitive
-- provider's seal contract (§6), used to instantiate witnesses.  The sealed
-- buffer keeps the message length, starts with `CRYPTO_BOX_BOXZEROBYTES` zero
-- bytes, and is opened exactly by `mOpen`.
def mBox (m _n _pk _sk : List Nat) : List Nat :=
  List.replicate CRYPTO_BOX_BOXZEROBYTES 0 ++ m.drop CRYPTO_BOX_BOXZEROBYTES

-- Modelled from the spec: the matching open operation for `mBox`.
def mOpen (c _n _pk _sk : List Nat) : Option (List Nat) :=
  if c.take CRYPTO_BOX_BOXZEROBYTES = List.replicate CRYPTO_BOX_BOXZEROBYTES 0
  then some (List.replicate CRYPTO_BOX_BOXZEROBYTES 0 ++ c.drop CRYPTO_BOX_BOXZEROBYTES)
  else none

-- ------------------------------------------------------------------
-- Header codec lemmas
-- ------------------------------------------------------------------

lemma magic_bytes_length : magic_bytes.length = 9 := rfl

lemma u16_be_list_small (t : Nat) (ht : t < 256) : u16_be_list t = [0, t] := by
  have h1 : (t % 65536) / 256 = 0 := by omega
  have h2 : t % 256 = t := Nat.mod_eq_of_lt ht
  simp [u16_be_list, u16_be_bytes, h1, h2]

lemma write_header_eq (t : Nat) (ht : t < 256) :
    write_header t = magic_bytes ++ [0, 2, 0, t] := by
  rw [write_header, u16_be_list_small 2 (by omega), u16_be_list_small t ht]
  simp

lemma write_header_length (t : Nat) (ht : t < 256) :
    (write_header t).length = 13 := by
  rw [write_header_eq t ht]
  simp [magic_bytes]

lemma read_header_write (t : Nat) (ht : t < HEADEREND) (rest : List Nat) :
    read_header (write_header t ++ rest) = .ok (t, rest) := by
  have ht4 : t < 4 := ht
  have ht' : t < 256 := by omega
  rw [write_header_eq t ht', List.append_assoc]
  rw [read_header]
  have hlen : (magic_bytes ++ ([0, 2, 0, t] ++ rest)).length = 13 + rest.length := by
    simp [magic_bytes]
    omega
  rw [if_neg (by rw [hlen]; simp only [MAGIC_LEN]; omega)]
  rw [if_neg (by simp only [MAGIC_LEN]; simp [List.take_left' magic_bytes_length])]
  rw [if_neg (by rw [hlen]; simp only [MAGIC_LEN]; omega)]
  have h9 : (magic_bytes ++ ([0, 2, 0, t] ++ rest)).getD 9 0 = 0 := by
    rw [List.getD_append_right _ _ _ _ (by simp [magic_bytes])]
    simp [magic_bytes]
  have h10 : (magic_bytes ++ ([0, 2, 0, t] ++ rest)).getD 10 0 = 2 := by
    rw [List.getD_append_right _ _ _ _ (by simp [magic_bytes])]
    simp [magic_bytes]
  have h11 : (magic_bytes ++ ([0, 2, 0, t] ++ rest)).getD 11 0 = 0 := by
    rw [List.getD_append_right _ _ _ _ (by simp [magic_bytes])]
    simp [magic_bytes]
  have h12 : (magic_bytes ++ ([0, 2, 0, t] ++ rest)).getD 12 0 = t := by
    rw [List.getD_append_right _ _ _ _ (by simp [magic_bytes])]
    simp [magic_bytes]
  rw [h9, h10, h11, h12]
  have hver : be_bytes_to_u16 0 2 = 2 := by norm_num [be_bytes_to_u16]
  have hvt : be_bytes_to_u16 0 t = t := by
    norm_num [be_bytes_to_u16, Nat.mod_eq_of_lt ht']
  rw [hver, hvt, if_pos rfl]
  have hu : u16_to_header_type t = some t := by
    rw [u16_to_header_type, if_pos ⟨Nat.zero_le t, ht⟩]
  have hdrop : (magic_bytes ++ 0 :: 2 :: 0 :: t :: rest).drop (MAGIC_LEN + 4) = rest := by
    rw [show magic_bytes ++ 0 :: 2 :: 0 :: t :: rest = (magic_bytes ++ [0, 2, 0, t]) ++ rest by simp]
    exact List.drop_left' (by simp [magic_bytes, MAGIC_LEN])
  simp [hu, hdrop]

lemma expect_header_write (t : Nat) (ht : t < HEADEREND) (rest : List Nat) :
    expect_header (write_header t ++ rest) t = .ok rest := by
  rw [expect_header, read_header_write t ht rest]
  simp

lemma read_exact_append (a b : List Nat) (n : Nat) (h : a.length = n) :
    read_exact (a ++ b) n = .ok (a, b) := by
  rw [read_exact, if_neg (by simp; omega)]
  rw [List.take_left' h, List.drop_left' h]

lemma read_exact_exact (a : List Nat) (n : Nat) (h : a.length = n) :
    read_exact a n = .ok (a, []) := by
  rw [read_exact, if_neg (by omega)]
  rw [List.take_of_length_le (by omega), List.drop_eq_nil_of_le (by omega)]

lemma read_header_ne_udte (s : List Nat) :
    read_header s ≠ .error .UnexpectedDataTypeError := by
  intro h
  rw [read_header] at h
  split at h
  · exact absurd h (by simp)
  · split at h
    · exact absurd h (by simp)
    · split at h
      · exact absurd h (by simp)
      · split at h
        · split at h <;> exact absurd h (by simp)
        · exact absurd h (by simp)

-- ------------------------------------------------------------------
-- Claim C4
-- ------------------------------------------------------------------

/-- Claim C4: `read_header` fails with InvalidData when the first 9 bytes
differ from the magic constant, with UnsupportedVersion when the magic matches
but the 2-byte version is not 2, with InvalidData when the version is 2 but
the 2-byte type tag is outside `{0,1,2,3}`, and otherwise returns the parsed
type tag; and `expect_header expectedType` fails with UnexpectedDataType
exactly when `read_header` succeeds with a type different from expectedType. -/
theorem spec_c4 :
    (∀ s : List Nat, MAGIC_LEN ≤ s.length → s.take MAGIC_LEN ≠ magic_bytes →
      read_header s = .error .InvalidDataError)
    ∧ (∀ s : List Nat, MAGIC_LEN + 4 ≤ s.length → s.take MAGIC_LEN = magic_bytes →
      be_bytes_to_u16 (s.getD 9 0) (s.getD 10 0) ≠ 2 →
      read_header s = .error .UnsupportedVersionError)
    ∧ (∀ s : List Nat, MAGIC_LEN + 4 ≤ s.length → s.take MAGIC_LEN = magic_bytes →
      be_bytes_to_u16 (s.getD 9 0) (s.getD 10 0) = 2 →
      ¬ be_bytes_to_u16 (s.getD 11 0) (s.getD 12 0) < HEADEREND →
      read_header s = .error .InvalidDataError)
    ∧ (∀ s : List Nat, MAGIC_LEN + 4 ≤ s.length → s.take MAGIC_LEN = magic_bytes →
      be_bytes_to_u16 (s.getD 9 0) (s.getD 10 0) = 2 →
      be_bytes_to_u16 (s.getD 11 0) (s.getD 12 0) < HEADEREND →
      read_header s = .ok (be_bytes_to_u16 (s.getD 11 0) (s.getD 12 0), s.drop 13))
    ∧ (∀ (s : List Nat) (et : Nat),
      expect_header s et = .error .UnexpectedDataTypeError ↔
        ∃ t rest, read_header s = .ok (t, rest) ∧ t ≠ et) := by
  refine ⟨?_, ?_, ?_, ?_, ?_⟩
  · intro s h1 h2
    rw [read_header, if_neg (by omega), if_pos h2]
  · intro s h1 h2 h3
    rw [read_header, if_neg (by omega), if_neg (by simp [h2]), if_neg (by omega),
      if_neg h3]
  · intro s h1 h2 h3 h4
    rw [read_header, if_neg (by omega), if_neg (by simp [h2]), if_neg (by omega),
      if_pos h3]
    have : u16_to_header_type (be_bytes_to_u16 (s.getD 11 0) (s.getD 12 0)) = none := by
      rw [u16_to_header_type, if_neg (by intro hc; exact h4 hc.2)]
    rw [this]
  · intro s h1 h2 h3 h4
    rw [read_header, if_neg (by omega), if_neg (by simp [h2]), if_neg (by omega),
      if_pos h3]
    have : u16_to_header_type (be_bytes_to_u16 (s.getD 11 0) (s.getD 12 0)) =
        some (be_bytes_to_u16 (s.getD 11 0) (s.getD 12 0)) := by
      rw [u16_to_header_type, if_pos ⟨Nat.zero_le _, h4⟩]
    rw [this]
  · intro s et
    cases hr : read_header s with
    | error e =>
      have hlhs : expect_header s et = .error e := by rw [expect_header, hr]
      rw [hlhs]
      constructor
      · intro h
        have he : e = .UnexpectedDataTypeError := by simpa using h
        exact absurd (he ▸ hr) (read_header_ne_udte s)
      · rintro ⟨t, rest, hok, -⟩
        exact absurd hok (by simp)
    | ok tr =>
      obtain ⟨t, rest⟩ := tr
      by_cases ht : t = et
      · have hlhs : expect_header s et = .ok rest := by
          simp [expect_header, hr, ht]
        rw [hlhs]
        constructor
        · intro h; exact absurd h (by simp)
        · rintro ⟨t', rest', hok, hne⟩
          simp at hok
          exact absurd (by rw [← hok.1]; exact ht) hne
      · have hlhs : expect_header s et = .error .UnexpectedDataTypeError := by
          simp [expect_header, hr, ht]
        rw [hlhs]
        exact ⟨fun _ => ⟨t, rest, rfl, ht⟩, fun _ => rfl⟩

/-- Witness for C4 at concrete byte streams: a corrupted-magic stream, a
wrong-version stream, an out-of-range type tag, a valid PublicKey header, and
`expect_header` of the Key type against that PublicKey header. -/
theorem spec_c4_witness :
    read_header (List.replicate 13 7) = .error .InvalidDataError
    ∧ read_header (magic_bytes ++ [0, 1, 0, 0]) = .error .UnsupportedVersionError
    ∧ read_header (magic_bytes ++ [0, 2, 0, 9]) = .error .InvalidDataError
    ∧ read_header (magic_bytes ++ [0, 2, 0, 1]) = .ok (1, [])
    ∧ expect_header (magic_bytes ++ [0, 2, 0, 1]) KEYHEADER =
        .error .UnexpectedDataTypeError := by
  refine ⟨?_, ?_, ?_, ?_, ?_⟩
  · exact spec_c4.1 (List.replicate 13 7) (by decide) (by decide)
  · exact spec_c4.2.1 (magic_bytes ++ [0, 1, 0, 0]) (by decide) (by decide) (by decide)
  · exact spec_c4.2.2.1 (magic_bytes ++ [0, 2, 0, 9]) (by decide) (by decide) (by decide)
      (by decide)
  · have h := spec_c4.2.2.2.1 (magic_bytes ++ [0, 2, 0, 1]) (by decide) (by decide)
      (by decide) (by decide)
    simpa using h
  · refine (spec_c4.2.2.2.2 (magic_bytes ++ [0, 2, 0, 1]) KEYHEADER).mpr ?_
    refine ⟨1, [], ?_, by decide⟩
    have h := spec_c4.2.2.2.1 (magic_bytes ++ [0, 2, 0, 1]) (by decide) (by decide)
      (by decide) (by decide)
    simpa using h

-- ------------------------------------------------------------------
-- Claim C5
-- ------------------------------------------------------------------

/-- Claim C5: deserializing the bytes produced by serializing a key bundle
round-trips exactly: `Key.read_boxed_from` applied to the output of
`Key.write` returns a bundle whose four fields are byte-identical. -/
theorem spec_c5 (k : Key)
    (h1 : k.box_pk.length = CRYPTO_BOX_PUBLICKEYBYTES)
    (h2 : k.box_sk.length = CRYPTO_BOX_SECRETKEYBYTES)
    (h3 : k.sign_pk.length = CRYPTO_SIGN_PUBLICKEYBYTES)
    (h4 : k.sign_sk.length = CRYPTO_SIGN_SECRETKEYBYTES) :
    Key.read_boxed_from (Key.write k) = .ok k := by
  obtain ⟨bpk, bsk, spk, ssk⟩ := k
  simp only at h1 h2 h3 h4
  rw [Key.read_boxed_from, Key.write]
  rw [show write_header KEYHEADER ++ bpk ++ bsk ++ spk ++ ssk =
      write_header KEYHEADER ++ (bpk ++ (bsk ++ (spk ++ ssk))) by simp]
  rw [expect_header_write KEYHEADER (by decide) _]
  simp only [bind, Except.bind, read_exact_append bpk _ _ h1,
    read_exact_append bsk _ _ h2, read_exact_append spk _ _ h3,
    read_exact_exact ssk _ h4]
  simp [pure, Except.pure]

/-- Witness for C5 at a concrete key bundle of the correct field widths. -/
theorem spec_c5_witness :
    Key.read_boxed_from (Key.write
      { box_pk := List.replicate 32 1, box_sk := List.replicate 32 2,
        sign_pk := List.replicate 32 3, sign_sk := List.replicate 64 4 }) =
    .ok { box_pk := List.replicate 32 1, box_sk := List.replicate 32 2,
          sign_pk := List.replicate 32 3, sign_sk := List.replicate 64 4 } :=
  spec_c5 _ (by simp) (by simp) (by simp) (by simp)

-- ------------------------------------------------------------------
-- Nonce counter lemmas
-- ------------------------------------------------------------------

lemma nonce_inc_length (l : List Nat) : (nonce_inc l).length = l.length := by
  induction l with
  | nil => rfl
  | cons b rest ih =>
    rw [nonce_inc]
    split
    · simp [ih]
    · simp

lemma nonce_inc_bytes_lt (l : List Nat) (h : ∀ b ∈ l, b < 256) :
    ∀ b ∈ nonce_inc l, b < 256 := by
  induction l with
  | nil => simp [nonce_inc]
  | cons b rest ih =>
    have hrest : ∀ x ∈ rest, x < 256 := fun x hx => h x (by simp [hx])
    rw [nonce_inc]
    split
    · intro x hx
      rcases List.mem_cons.mp hx with hx | hx
      · omega
      · exact ih hrest x hx
    · intro x hx
      rcases List.mem_cons.mp hx with hx | hx
      · omega
      · exact hrest x hx

lemma le_val_lt (l : List Nat) (h : ∀ b ∈ l, b < 256) :
    le_val l < 256 ^ l.length := by
  induction l with
  | nil => simp [le_val]
  | cons b rest ih =>
    have hb : b < 256 := h b (by simp)
    have hv := ih fun x hx => h x (by simp [hx])
    rw [le_val, List.length_cons, pow_succ]
    omega

lemma nonce_inc_le_val (l : List Nat) (h : ∀ b ∈ l, b < 256) :
    le_val (nonce_inc l) = (le_val l + 1) % 256 ^ l.length := by
  induction l with
  | nil => simp [nonce_inc, le_val]
  | cons b rest ih =>
    have hb : b < 256 := h b (by simp)
    have hrest : ∀ x ∈ rest, x < 256 := fun x hx => h x (by simp [hx])
    rw [nonce_inc]
    by_cases hwrap : (b + 1) % 256 = 0
    · rw [if_pos hwrap]
      have hb255 : b = 255 := by omega
      rw [le_val, le_val, ih hrest, hb255, List.length_cons, pow_succ]
      rw [show (255 : Nat) + 256 * le_val rest + 1 = 256 * (le_val rest + 1) by ring]
      rw [show (256 : Nat) ^ rest.length * 256 = 256 * 256 ^ rest.length by ring]
      rw [Nat.mul_mod_mul_left]
      norm_num
    · rw [if_neg hwrap]
      have hmod : (b + 1) % 256 = b + 1 := by omega
      have hv := le_val_lt rest hrest
      rw [le_val, le_val, hmod, List.length_cons, pow_succ]
      rw [Nat.mod_eq_of_lt (by omega)]
      omega

lemma nonce_iter_length (l : List Nat) (k : Nat) :
    (nonce_inc^[k] l).length = l.length := by
  induction k with
  | zero => rfl
  | succ k ih => rw [Function.iterate_succ_apply', nonce_inc_length, ih]

lemma nonce_iter_bytes_lt (l : List Nat) (k : Nat) (h : ∀ b ∈ l, b < 256) :
    ∀ b ∈ nonce_inc^[k] l, b < 256 := by
  induction k with
  | zero => exact h
  | succ k ih => rw [Function.iterate_succ_apply']; exact nonce_inc_bytes_lt _ ih

lemma nonce_iter_le_val (l : List Nat) (k : Nat) (h : ∀ b ∈ l, b < 256) :
    le_val (nonce_inc^[k] l) = (le_val l + k) % 256 ^ l.length := by
  induction k with
  | zero =>
    rw [Function.iterate_zero_apply, Nat.add_zero, Nat.mod_eq_of_lt (le_val_lt l h)]
  | succ k ih =>
    rw [Function.iterate_succ_apply', nonce_inc_le_val _ (nonce_iter_bytes_lt l k h),
      nonce_iter_length, ih, Nat.mod_add_mod, ← Nat.add_assoc]

lemma le_val_inj (l1 l2 : List Nat) (hlen : l1.length = l2.length)
    (h1 : ∀ b ∈ l1, b < 256) (h2 : ∀ b ∈ l2, b < 256)
    (hv : le_val l1 = le_val l2) : l1 = l2 := by
  induction l1 generalizing l2 with
  | nil =>
    cases l2 with
    | nil => rfl
    | cons c s => simp at hlen
  | cons b r ih =>
    cases l2 with
    | nil => simp at hlen
    | cons c s =>
      have hb : b < 256 := h1 b (by simp)
      have hc : c < 256 := h2 c (by simp)
      rw [le_val, le_val] at hv
      have hbc : b = c ∧ le_val r = le_val s := by omega
      have := ih s (by simpa using hlen) (fun x hx => h1 x (List.mem_cons_of_mem _ hx))
        (fun x hx => h2 x (List.mem_cons_of_mem _ hx)) hbc.2
      rw [hbc.1, this]

lemma le_val_replicate_zero (n : Nat) : le_val (List.replicate n 0) = 0 := by
  induction n with
  | zero => rfl
  | succ n ih => rw [List.replicate_succ, le_val, ih]

-- ------------------------------------------------------------------
-- Claim C6
-- ------------------------------------------------------------------

/-- Claim C6: `nonce_inc` adds 1 to the buffer read as a little-endian
arbitrary-precision counter (wrapping carries propagate, and the whole counter
rolls over to zero when every byte wraps); in particular a nonce starting
`[0xff, 0xff, 0xfe, 0x03]` becomes `[0x00, 0x00, 0xff, 0x03]` with all later
bytes unchanged, and the all-0xff buffer becomes the all-zero buffer. -/
theorem spec_c6 :
    (∀ l : List Nat, (∀ b ∈ l, b < 256) →
      le_val (nonce_inc l) = (le_val l + 1) % 256 ^ l.length)
    ∧ (∀ rest : List Nat, nonce_inc (255 :: 255 :: 254 :: 3 :: rest) =
        0 :: 0 :: 255 :: 3 :: rest)
    ∧ nonce_inc (List.replicate 24 255) = List.replicate 24 0 := by
  refine ⟨nonce_inc_le_val, ?_, by decide⟩
  intro rest
  rw [nonce_inc, if_pos (by norm_num), nonce_inc, if_pos (by norm_num),
    nonce_inc, if_neg (by norm_num)]

/-- Witness for C6: the little-endian counter characterization evaluated at
the concrete 4-byte buffer from the source's own nonce-increment test. -/
theorem spec_c6_witness :
    le_val (nonce_inc [255, 255, 254, 3]) =
      (le_val [255, 255, 254, 3] + 1) % 256 ^ ([255, 255, 254, 3] : List Nat).length :=
  spec_c6.1 [255, 255, 254, 3] (by decide)

-- ------------------------------------------------------------------
-- Claim C7
-- ------------------------------------------------------------------

/-- Claim C7: destroying a key bundle runs the teardown routines of both
secret-key fields, which overwrite every byte of the encryption secret key and
of the signing secret key with zero (each field keeping its fixed width). -/
theorem spec_c7 (k : Key) :
    (key_drop k).box_sk = List.replicate CRYPTO_BOX_SECRETKEYBYTES 0
    ∧ (key_drop k).sign_sk = List.replicate CRYPTO_SIGN_SECRETKEYBYTES 0
    ∧ (∀ b ∈ (key_drop k).box_sk, b = 0)
    ∧ (∀ b ∈ (key_drop k).sign_sk, b = 0) := by
  refine ⟨rfl, rfl, ?_, ?_⟩
  · intro b hb
    exact List.eq_of_mem_replicate hb
  · intro b hb
    exact List.eq_of_mem_replicate hb

/-- Witness for C7 at a concrete bundle: both secret fields are the all-zero
arrays after teardown, and a byte drawn from the dropped encryption secret is
zero. -/
theorem spec_c7_witness :
    (key_drop ⟨[1], [2], [3], [4]⟩).box_sk = List.replicate 32 0
    ∧ (key_drop ⟨[1], [2], [3], [4]⟩).sign_sk = List.replicate 64 0
    ∧ (0 : Nat) = 0 :=
  ⟨(spec_c7 ⟨[1], [2], [3], [4]⟩).1, (spec_c7 ⟨[1], [2], [3], [4]⟩).2.1,
    (spec_c7 ⟨[1], [2], [3], [4]⟩).2.2.1 0 (by decide)⟩

-- ------------------------------------------------------------------
-- Buffer-write and chunking lemmas
-- ------------------------------------------------------------------

lemma listWrite_length (l : List Nat) (i : Nat) (xs : List Nat)
    (h : i + xs.length ≤ l.length) : (listWrite l i xs).length = l.length := by
  simp [listWrite]
  omega

lemma listWrite_take (l : List Nat) (i : Nat) (xs : List Nat) (h : i ≤ l.length) :
    (listWrite l i xs).take i = l.take i := by
  rw [listWrite, List.take_append_eq_append_take, List.length_take]
  rw [show min i l.length = i by omega]
  simp [List.take_take]

lemma listWrite_drop (l : List Nat) (i : Nat) (xs : List Nat) (h : i ≤ l.length) :
    (listWrite l i xs).drop i = xs ++ l.drop (i + xs.length) := by
  rw [listWrite, List.drop_append_eq_append_drop, List.length_take]
  rw [show min i l.length = i by omega]
  rw [List.drop_eq_nil_of_le (by rw [List.length_take]; omega)]
  simp

lemma u16_be_list_length (v : Nat) : (u16_be_list v).length = 2 := rfl

lemma padRecord_length (buf c : List Nat) (hbuf : buf.length = BUF_SZ)
    (hc : c.length ≤ READ_SZ) : (padRecord buf c).length = BUF_SZ := by
  rw [padRecord, listWrite_length]
  · exact hbuf
  · rw [hbuf]
    simp only [List.length_append, u16_be_list_length, CRYPTO_BOX_ZEROBYTES, BUF_SZ, READ_SZ]
    simp only [READ_SZ] at hc
    omega

lemma padRecord_take (buf c : List Nat) (hbuf : buf.length = BUF_SZ) :
    (padRecord buf c).take CRYPTO_BOX_ZEROBYTES = buf.take CRYPTO_BOX_ZEROBYTES := by
  rw [padRecord, listWrite_take]
  rw [hbuf]
  simp only [CRYPTO_BOX_ZEROBYTES, BUF_SZ, READ_SZ]
  omega

lemma padRecord_drop (buf c : List Nat) (hbuf : buf.length = BUF_SZ) :
    (padRecord buf c).drop CRYPTO_BOX_ZEROBYTES =
      u16_be_list c.length ++ (c ++ buf.drop (CRYPTO_BOX_ZEROBYTES + (2 + c.length))) := by
  rw [padRecord, listWrite_drop _ _ _ (by rw [hbuf]; decide), List.append_assoc,
    List.length_append, u16_be_list_length]

lemma padRecord_size_field (buf c : List Nat) (hbuf : buf.length = BUF_SZ) :
    ((padRecord buf c).drop CRYPTO_BOX_ZEROBYTES).take 2 = u16_be_list c.length := by
  rw [padRecord_drop buf c hbuf]
  exact List.take_left' (u16_be_list_length c.length)

lemma padRecord_payload (buf c : List Nat) (hbuf : buf.length = BUF_SZ) :
    ((padRecord buf c).drop (CRYPTO_BOX_ZEROBYTES + 2)).take c.length = c := by
  have h1 : (padRecord buf c).drop (CRYPTO_BOX_ZEROBYTES + 2) =
      ((padRecord buf c).drop CRYPTO_BOX_ZEROBYTES).drop 2 := by
    rw [List.drop_drop]
  rw [h1, padRecord_drop buf c hbuf, List.drop_left' (u16_be_list_length c.length)]
  exact List.take_left' rfl

lemma padRecord_getD_hi (buf c : List Nat) (hbuf : buf.length = BUF_SZ) :
    (padRecord buf c).getD CRYPTO_BOX_ZEROBYTES 0 = (u16_be_list c.length).getD 0 0 := by
  have h0 : (padRecord buf c).getD CRYPTO_BOX_ZEROBYTES 0 =
      ((padRecord buf c).drop CRYPTO_BOX_ZEROBYTES).getD 0 0 := by
    rw [List.getD_eq_getElem?_getD, List.getD_eq_getElem?_getD, List.getElem?_drop]
  rw [h0, padRecord_drop buf c hbuf]
  exact List.getD_append _ _ _ _ (by simp [u16_be_list])

lemma padRecord_getD_lo (buf c : List Nat) (hbuf : buf.length = BUF_SZ) :
    (padRecord buf c).getD (CRYPTO_BOX_ZEROBYTES + 1) 0 = (u16_be_list c.length).getD 1 0 := by
  have h0 : (padRecord buf c).getD (CRYPTO_BOX_ZEROBYTES + 1) 0 =
      ((padRecord buf c).drop CRYPTO_BOX_ZEROBYTES).getD 1 0 := by
    rw [List.getD_eq_getElem?_getD, List.getD_eq_getElem?_getD, List.getElem?_drop]
  rw [h0, padRecord_drop buf c hbuf]
  exact List.getD_append _ _ _ _ (by simp [u16_be_list])

lemma chunksOfF_nil (f : Nat) : chunksOfF f [] = [] := by
  cases f with
  | zero => rfl
  | succ f => rw [chunksOfF, if_pos rfl]

lemma chunksOfF_congr (f1 : Nat) : ∀ (f2 : Nat) (src : List Nat),
    src.length ≤ f1 → src.length ≤ f2 → chunksOfF f1 src = chunksOfF f2 src := by
  induction f1 with
  | zero =>
    intro f2 src h1 h2
    have : src = [] := List.eq_nil_of_length_eq_zero (by omega)
    rw [this, chunksOfF_nil, chunksOfF_nil]
  | succ f1 ih =>
    intro f2 src h1 h2
    by_cases hs : src = []
    · rw [hs, chunksOfF_nil, chunksOfF_nil]
    · have hpos : 0 < src.length := List.length_pos.mpr hs
      cases f2 with
      | zero => omega
      | succ f2 =>
        rw [chunksOfF, chunksOfF, if_neg hs, if_neg hs]
        congr 1
        exact ih f2 (src.drop READ_SZ)
          (by simp only [List.length_drop, READ_SZ]; omega)
          (by simp only [List.length_drop, READ_SZ]; omega)

lemma chunksOf_cons (src : List Nat) (h : src ≠ []) :
    chunksOf src = src.take READ_SZ :: chunksOf (src.drop READ_SZ) := by
  have hpos : 0 < src.length := List.length_pos.mpr h
  rw [chunksOf]
  have hsucc : ∃ f, src.length = f + 1 := ⟨src.length - 1, by omega⟩
  obtain ⟨f, hf⟩ := hsucc
  rw [hf, chunksOfF, if_neg h]
  congr 1
  rw [chunksOf]
  exact chunksOfF_congr f _ _
    (by simp only [List.length_drop, READ_SZ]; omega)
    (by simp only [List.length_drop, READ_SZ]; omega)

lemma mem_chunksOfF (f : Nat) : ∀ (src c : List Nat), src.length ≤ f →
    c ∈ chunksOfF f src → 1 ≤ c.length ∧ c.length ≤ READ_SZ := by
  induction f with
  | zero =>
    intro src c h hc
    simp [chunksOfF] at hc
  | succ f ih =>
    intro src c h hc
    rw [chunksOfF] at hc
    by_cases hs : src = []
    · rw [if_pos hs] at hc
      simp at hc
    · rw [if_neg hs] at hc
      have hpos : 0 < src.length := List.length_pos.mpr hs
      rcases List.mem_cons.mp hc with rfl | hc
      · rw [List.length_take]
        simp only [READ_SZ]
        omega
      · exact ih (src.drop READ_SZ) c
          (by simp only [List.length_drop, READ_SZ]; omega) hc

lemma mem_chunksOf (src c : List Nat) (hc : c ∈ chunksOf src) :
    1 ≤ c.length ∧ c.length ≤ READ_SZ :=
  mem_chunksOfF src.length src c (Nat.le_refl _) hc

lemma chunksOfF_flatten (f : Nat) : ∀ src : List Nat, src.length ≤ f →
    (chunksOfF f src).flatten = src := by
  induction f with
  | zero =>
    intro src h
    have hnil : src = [] := List.eq_nil_of_length_eq_zero (by omega)
    rw [hnil, chunksOfF_nil]
    rfl
  | succ f ih =>
    intro src h
    by_cases hs : src = []
    · rw [hs, chunksOfF_nil]
      rfl
    · have hpos : 0 < src.length := List.length_pos.mpr hs
      rw [chunksOfF, if_neg hs, List.flatten_cons,
        ih (src.drop READ_SZ) (by simp only [List.length_drop, READ_SZ]; omega),
        List.take_append_drop]

lemma chunksOf_flatten (src : List Nat) : (chunksOf src).flatten = src :=
  chunksOfF_flatten src.length src (Nat.le_refl _)

-- ------------------------------------------------------------------
-- Claim C9
-- ------------------------------------------------------------------

/-- Claim C9: every nonempty chunk `encrypt`'s loop reads has length `n` with
`1 ≤ n ≤ 65535` (each read fills at most the 16384-byte capacity slice), so
the `n ≤ 0xffff` assertion never fails and the 2-byte big-endian length field
decodes back to exactly `n`. -/
theorem spec_c9 : ∀ (src c : List Nat), c ∈ chunksOf src →
    1 ≤ c.length ∧ c.length ≤ READ_SZ ∧ c.length ≤ 0xffff ∧
    be_bytes_to_u16 ((u16_be_list c.length).getD 0 0) ((u16_be_list c.length).getD 1 0) =
      c.length := by
  intro src c hc
  have h := mem_chunksOf src c hc
  simp only [READ_SZ] at h
  refine ⟨h.1, by simp only [READ_SZ]; omega, by omega, ?_⟩
  simp only [u16_be_list, u16_be_bytes, be_bytes_to_u16, List.getD_cons_zero,
    List.getD_cons_succ]
  omega

/-- Witness for C9 at the one-byte source `[7]`, whose single chunk is `[7]`. -/
theorem spec_c9_witness :
    1 ≤ ([7] : List Nat).length ∧ ([7] : List Nat).length ≤ READ_SZ ∧
    ([7] : List Nat).length ≤ 0xffff ∧
    be_bytes_to_u16 ((u16_be_list ([7] : List Nat).length).getD 0 0)
      ((u16_be_list ([7] : List Nat).length).getD 1 0) = ([7] : List Nat).length :=
  spec_c9 [7] [7] (by decide)

-- ------------------------------------------------------------------
-- Record-stream structure lemmas
-- ------------------------------------------------------------------

lemma getD_mem {α : Type} (l : List α) (i : Nat) (d : α) (h : i < l.length) :
    l.getD i d ∈ l := by
  rw [List.getD_eq_getElem?_getD, List.getElem?_eq_getElem h]
  exact List.getElem_mem h

lemma buf0_length : (List.replicate BUF_SZ (0 : Nat)).length = BUF_SZ := by simp

lemma buf0_take :
    (List.replicate BUF_SZ (0 : Nat)).take CRYPTO_BOX_ZEROBYTES =
      List.replicate CRYPTO_BOX_ZEROBYTES 0 := by
  rw [List.take_replicate]
  congr 1

lemma noncesFrom_succ (n0 : List Nat) (k : Nat) :
    noncesFrom n0 (k + 1) = n0 :: noncesFrom (nonce_inc n0) k := by
  rw [noncesFrom, List.range_succ_eq_map, List.map_cons, List.map_map]
  congr 1

lemma sealChunks_eq_zip (box_ : List Nat → List Nat → List Nat → List Nat → List Nat)
    (to_pk esk : List Nat) : ∀ (cs : List (List Nat)) (buf n0 : List Nat),
    sealChunks box_ to_pk esk cs buf n0 =
      (List.zipWith (fun b nn => (box_ b nn to_pk esk).drop CRYPTO_BOX_BOXZEROBYTES)
        (paddedBufs buf cs) (noncesFrom n0 cs.length)).flatten := by
  intro cs
  induction cs with
  | nil =>
    intro buf n0
    simp [sealChunks, paddedBufs, noncesFrom]
  | cons c cs ih =>
    intro buf n0
    simp only [sealChunks, paddedBufs, List.length_cons, noncesFrom_succ,
      List.zipWith_cons_cons, List.flatten_cons]
    rw [ih]

lemma zip_records_getD (box_ : List Nat → List Nat → List Nat → List Nat → List Nat)
    (to_pk esk : List Nat) : ∀ (cs : List (List Nat)) (buf n0 : List Nat) (i : Nat),
    i < cs.length →
    (List.zipWith (fun b nn => (box_ b nn to_pk esk).drop CRYPTO_BOX_BOXZEROBYTES)
        (paddedBufs buf cs) (noncesFrom n0 cs.length)).getD i [] =
      (box_ ((paddedBufs buf cs).getD i []) (nonce_inc^[i] n0) to_pk esk).drop
        CRYPTO_BOX_BOXZEROBYTES := by
  intro cs
  induction cs with
  | nil =>
    intro buf n0 i hi
    simp at hi
  | cons c cs ih =>
    intro buf n0 i hi
    rw [List.length_cons, noncesFrom_succ]
    simp only [paddedBufs, List.zipWith_cons_cons]
    cases i with
    | zero => simp
    | succ i =>
      simp only [List.getD_cons_succ]
      rw [ih (padRecord buf c) (nonce_inc n0) i (by simpa using hi),
        Function.iterate_succ_apply]

lemma paddedBufs_facts : ∀ (cs : List (List Nat)) (buf : List Nat),
    buf.length = BUF_SZ →
    buf.take CRYPTO_BOX_ZEROBYTES = List.replicate CRYPTO_BOX_ZEROBYTES 0 →
    (∀ c ∈ cs, c.length ≤ READ_SZ) →
    ∀ i, i < cs.length →
      ((paddedBufs buf cs).getD i []).length = BUF_SZ
      ∧ ((paddedBufs buf cs).getD i []).take CRYPTO_BOX_ZEROBYTES =
          List.replicate CRYPTO_BOX_ZEROBYTES 0
      ∧ (((paddedBufs buf cs).getD i []).drop CRYPTO_BOX_ZEROBYTES).take 2 =
          u16_be_list ((cs.getD i []).length)
      ∧ (((paddedBufs buf cs).getD i []).drop (CRYPTO_BOX_ZEROBYTES + 2)).take
          (cs.getD i []).length = cs.getD i [] := by
  intro cs
  induction cs with
  | nil =>
    intro buf _ _ _ i hi
    simp at hi
  | cons c cs ih =>
    intro buf hlen htake hcs i hi
    have hc : c.length ≤ READ_SZ := hcs c (by simp)
    have hb_len : (padRecord buf c).length = BUF_SZ := padRecord_length buf c hlen hc
    have hb_take : (padRecord buf c).take CRYPTO_BOX_ZEROBYTES =
        List.replicate CRYPTO_BOX_ZEROBYTES 0 := by
      rw [padRecord_take buf c hlen, htake]
    cases i with
    | zero =>
      simp only [paddedBufs, List.getD_cons_zero]
      exact ⟨hb_len, hb_take, padRecord_size_field buf c hlen, padRecord_payload buf c hlen⟩
    | succ i =>
      simp only [paddedBufs, List.getD_cons_succ]
      exact ih (padRecord buf c) hb_len hb_take
        (fun x hx => hcs x (List.mem_cons_of_mem _ hx)) i (by simpa using hi)

-- ------------------------------------------------------------------
-- Claim C3
-- ------------------------------------------------------------------

/-- Claim C3: `encrypt` writes, in order, the Ciphertext header, the ephemeral
public key, the fresh nonce, and then one sealed record per nonempty read,
each record being the sealed padded buffer with the provider's leading
`CRYPTO_BOX_BOXZEROBYTES` zero bytes stripped; the padded buffer for chunk `i`
carries the provider's 32 zero bytes, then the 2-byte big-endian length field
recording the chunk's length `n`, then the `n` plaintext bytes; a read of zero
bytes ends the loop, so an empty source yields no record at all. -/
theorem spec_c3 (box_ : List Nat → List Nat → List Nat → List Nat → List Nat)
    (to_pk epk esk n0 : List Nat) :
    (∀ src : List Nat, encrypt box_ src to_pk epk esk n0 =
      write_header CIPHERTEXTHEADER ++ epk ++ n0 ++
        (recordsOf box_ to_pk esk src (List.replicate BUF_SZ 0) n0).flatten)
    ∧ encrypt box_ [] to_pk epk esk n0 = write_header CIPHERTEXTHEADER ++ epk ++ n0
    ∧ (∀ (src : List Nat) (i : Nat), i < (chunksOf src).length →
        ((paddedBufs (List.replicate BUF_SZ 0) (chunksOf src)).getD i []).take
            CRYPTO_BOX_ZEROBYTES = List.replicate CRYPTO_BOX_ZEROBYTES 0
        ∧ (((paddedBufs (List.replicate BUF_SZ 0) (chunksOf src)).getD i []).drop
            CRYPTO_BOX_ZEROBYTES).take 2 = u16_be_list (((chunksOf src).getD i []).length)
        ∧ be_bytes_to_u16 ((u16_be_list (((chunksOf src).getD i []).length)).getD 0 0)
            ((u16_be_list (((chunksOf src).getD i []).length)).getD 1 0) =
            ((chunksOf src).getD i []).length
        ∧ (((paddedBufs (List.replicate BUF_SZ 0) (chunksOf src)).getD i []).drop
            (CRYPTO_BOX_ZEROBYTES + 2)).take (((chunksOf src).getD i []).length) =
            (chunksOf src).getD i []
        ∧ 1 ≤ ((chunksOf src).getD i []).length) := by
  refine ⟨?_, ?_, ?_⟩
  · intro src
    rw [encrypt, recordsOf, sealChunks_eq_zip]
  · rw [encrypt]
    simp [chunksOf, chunksOfF_nil, sealChunks]
  · intro src i hi
    have hmem := getD_mem (chunksOf src) i [] hi
    have hbounds := mem_chunksOf src _ hmem
    have hfacts := paddedBufs_facts (chunksOf src) (List.replicate BUF_SZ 0)
      buf0_length buf0_take (fun c hc => (mem_chunksOf src c hc).2) i hi
    refine ⟨hfacts.2.1, hfacts.2.2.1, ?_, hfacts.2.2.2, hbounds.1⟩
    have hlt : ((chunksOf src).getD i []).length < 65536 := by
      simp only [READ_SZ] at hbounds
      omega
    simp only [u16_be_list, u16_be_bytes, be_bytes_to_u16, List.getD_cons_zero,
      List.getD_cons_succ]
    omega

/-- Witness for C3: the per-chunk buffer facts applied at the one-byte source
`[5]` and chunk index 0, with the model provider. -/
theorem spec_c3_witness :
    ((paddedBufs (List.replicate BUF_SZ 0) (chunksOf [5])).getD 0 []).take
        CRYPTO_BOX_ZEROBYTES = List.replicate CRYPTO_BOX_ZEROBYTES 0
    ∧ (((paddedBufs (List.replicate BUF_SZ 0) (chunksOf [5])).getD 0 []).drop
        CRYPTO_BOX_ZEROBYTES).take 2 = u16_be_list (((chunksOf [5]).getD 0 []).length)
    ∧ be_bytes_to_u16 ((u16_be_list (((chunksOf [5]).getD 0 []).length)).getD 0 0)
        ((u16_be_list (((chunksOf [5]).getD 0 []).length)).getD 1 0) =
        ((chunksOf [5]).getD 0 []).length
    ∧ (((paddedBufs (List.replicate BUF_SZ 0) (chunksOf [5])).getD 0 []).drop
        (CRYPTO_BOX_ZEROBYTES + 2)).take (((chunksOf [5]).getD 0 []).length) =
        (chunksOf [5]).getD 0 []
    ∧ 1 ≤ ((chunksOf [5]).getD 0 []).length :=
  (spec_c3 mBox [] [] [] (List.replicate 24 0)).2.2 [5] 0 (by decide)

-- ------------------------------------------------------------------
-- Claim C10
-- ------------------------------------------------------------------

lemma mBox_length_buf (to_pk esk : List Nat) :
    ∀ m nn : List Nat, m.length = BUF_SZ → (mBox m nn to_pk esk).length = BUF_SZ := by
  intro m nn h
  rw [mBox]
  simp only [List.length_append, List.length_replicate, List.length_drop, h]
  decide

/-- Claim C10: every ciphertext record `encrypt` writes has the same fixed
length `BUF_SZ - CRYPTO_BOX_BOXZEROBYTES` regardless of how many plaintext
bytes the chunk carries, because the seal is always applied to the whole
padded buffer (a short final chunk still yields a full-size record whose
trailing sealed bytes are the buffer's leftover contents). -/
theorem spec_c10 (box_ : List Nat → List Nat → List Nat → List Nat → List Nat)
    (to_pk esk n0 : List Nat)
    (Hlen : ∀ m nn : List Nat, m.length = BUF_SZ → (box_ m nn to_pk esk).length = BUF_SZ) :
    ∀ (src : List Nat) (i : Nat), i < (chunksOf src).length →
      ((recordsOf box_ to_pk esk src (List.replicate BUF_SZ 0) n0).getD i []).length =
        BUF_SZ - CRYPTO_BOX_BOXZEROBYTES := by
  intro src i hi
  rw [recordsOf, zip_records_getD box_ to_pk esk (chunksOf src) _ n0 i hi, List.length_drop]
  rw [Hlen _ _ (paddedBufs_facts (chunksOf src) (List.replicate BUF_SZ 0)
    buf0_length buf0_take (fun c hc => (mem_chunksOf src c hc).2) i hi).1]

/-- Witness for C10: the single record of `encrypt` on the one-byte source
`[5]` with the model provider has length `BUF_SZ - CRYPTO_BOX_BOXZEROBYTES`. -/
theorem spec_c10_witness :
    ((recordsOf mBox [] [] [5] (List.replicate BUF_SZ 0)
        (List.replicate 24 0)).getD 0 []).length = BUF_SZ - CRYPTO_BOX_BOXZEROBYTES :=
  spec_c10 mBox [] [] (List.replicate 24 0) (mBox_length_buf [] []) [5] 0 (by decide)

-- ------------------------------------------------------------------
-- Claim C2
-- ------------------------------------------------------------------

lemma noncesFrom_getD (n0 : List Nat) (k m : Nat) (h : m < k) :
    (noncesFrom n0 k).getD m [] = nonce_inc^[m] n0 := by
  rw [noncesFrom, List.getD_eq_getElem?_getD, List.getElem?_map, List.getElem?_range h]
  rfl

lemma chunksOf_replicate (k : Nat) :
    chunksOf (List.replicate (READ_SZ * k) (0 : Nat)) =
      List.replicate k (List.replicate READ_SZ 0) := by
  induction k with
  | zero => simp [chunksOf, chunksOfF]
  | succ k ih =>
    have hne : List.replicate (READ_SZ * (k + 1)) (0 : Nat) ≠ [] := by
      apply List.ne_nil_of_length_pos
      simp only [List.length_replicate, READ_SZ]
      omega
    rw [chunksOf_cons _ hne, List.take_replicate, List.drop_replicate]
    rw [show min READ_SZ (READ_SZ * (k + 1)) = READ_SZ by
      simp only [READ_SZ]; omega]
    rw [show READ_SZ * (k + 1) - READ_SZ = READ_SZ * k by
      simp only [READ_SZ]; omega]
    rw [ih]
    exact (List.replicate_succ _ _).symm

/-- Claim C2 (amended): within one message, the nonce sealed under chunk `i+1`
differs from the nonce of every earlier chunk `j ≤ i`, provided fewer than
`2^192` chunks separate them (the 24-byte little-endian nonce counter rolls
over after `2^192` increments); the nonce of chunk `k` is `nonce_inc`
iterated `k` times on the message's fresh nonce. -/
theorem spec_c2 (n0 : List Nat) (hlen : n0.length = CRYPTO_BOX_NONCEBYTES)
    (hbytes : ∀ b ∈ n0, b < 256) (src : List Nat) (i j : Nat)
    (hij : j ≤ i) (hcount : i + 1 < (chunksOf src).length)
    (hspan : i + 1 - j < 2 ^ 192) :
    (noncesFrom n0 (chunksOf src).length).getD (i + 1) [] ≠
      (noncesFrom n0 (chunksOf src).length).getD j [] := by
  intro heq
  rw [noncesFrom_getD n0 _ _ hcount, noncesFrom_getD n0 _ _ (by omega)] at heq
  have hv := congrArg le_val heq
  rw [nonce_iter_le_val n0 (i + 1) hbytes, nonce_iter_le_val n0 j hbytes, hlen] at hv
  rw [show (256 : Nat) ^ CRYPTO_BOX_NONCEBYTES = 2 ^ 192 by norm_num] at hv
  have h1 : le_val n0 + (i + 1) ≡ le_val n0 + j [MOD 2 ^ 192] := hv
  have hmod : (i + 1) ≡ j [MOD 2 ^ 192] := Nat.ModEq.add_left_cancel' (le_val n0) h1
  have hdvd : (2 : Nat) ^ 192 ∣ i + 1 - j := (Nat.modEq_iff_dvd' (by omega)).mp hmod.symm
  have hle := Nat.le_of_dvd (by omega) hdvd
  omega

/-- Witness for C2 at the two-chunk source `READ_SZ + 1` bytes long: the
nonces of chunks 1 and 0 differ. -/
theorem spec_c2_witness :
    (noncesFrom (List.replicate 24 0)
        (chunksOf (List.replicate (READ_SZ + 1) 0)).length).getD 1 [] ≠
      (noncesFrom (List.replicate 24 0)
        (chunksOf (List.replicate (READ_SZ + 1) 0)).length).getD 0 [] := by
  have hc : 0 + 1 < (chunksOf (List.replicate (READ_SZ + 1) (0 : Nat))).length := by
    have h1 : List.replicate (READ_SZ + 1) (0 : Nat) ≠ [] := by
      apply List.ne_nil_of_length_pos
      simp
    have h2 : (List.replicate (READ_SZ + 1) (0 : Nat)).drop READ_SZ ≠ [] := by
      apply List.ne_nil_of_length_pos
      rw [List.drop_replicate]
      simp only [List.length_replicate, READ_SZ]
      omega
    rw [chunksOf_cons _ h1, List.drop_replicate, chunksOf_cons _ (by
      rw [List.drop_replicate] at h2; exact h2)]
    simp
  exact spec_c2 (List.replicate 24 0) (by simp)
    (fun b hb => by rw [List.eq_of_mem_replicate hb]; omega)
    (List.replicate (READ_SZ + 1) 0) 0 0 (Nat.le_refl 0) hc (by omega)

/-- Counterexample to C2 as stated: with enough chunks the 24-byte nonce
counter rolls over, so on a source of `READ_SZ * (2^192 + 1)` bytes the nonce
of chunk `2^192` equals the nonce of chunk 0. -/
theorem spec_c2_counterexample :
    ¬ (∀ n0 : List Nat, n0.length = CRYPTO_BOX_NONCEBYTES → (∀ b ∈ n0, b < 256) →
      ∀ (src : List Nat) (i j : Nat), j ≤ i → i + 1 < (chunksOf src).length →
        (noncesFrom n0 (chunksOf src).length).getD (i + 1) [] ≠
          (noncesFrom n0 (chunksOf src).length).getD j []) := by
  intro hclaim
  have hpos : 0 < (2 : Nat) ^ 192 := pow_pos (by omega) 192
  have hzb : ∀ b ∈ List.replicate 24 (0 : Nat), b < 256 := by
    intro b hb
    rw [List.eq_of_mem_replicate hb]
    omega
  have hcount : (chunksOf (List.replicate (READ_SZ * (2 ^ 192 + 1)) (0 : Nat))).length =
      2 ^ 192 + 1 := by
    rw [chunksOf_replicate, List.length_replicate]
  have hiter : nonce_inc^[2 ^ 192] (List.replicate 24 (0 : Nat)) = List.replicate 24 0 := by
    apply le_val_inj
    · rw [nonce_iter_length, List.length_replicate]
    · exact nonce_iter_bytes_lt _ _ hzb
    · exact hzb
    · rw [nonce_iter_le_val _ _ hzb, le_val_replicate_zero, List.length_replicate]
      rw [show (256 : Nat) ^ 24 = 2 ^ 192 by norm_num]
      simp [Nat.mod_self]
  have happ := hclaim (List.replicate 24 0) (by simp) hzb
    (List.replicate (READ_SZ * (2 ^ 192 + 1)) 0) (2 ^ 192 - 1) 0 (Nat.zero_le _)
    (by rw [hcount]; omega)
  apply happ
  rw [show 2 ^ 192 - 1 + 1 = 2 ^ 192 by omega]
  rw [noncesFrom_getD _ _ _ (by rw [hcount]; omega),
    noncesFrom_getD _ _ _ (by rw [hcount]; omega)]
  rw [hiter]
  rfl

-- ------------------------------------------------------------------
-- Claim C8
-- ------------------------------------------------------------------

/-- Claim C8 (amended): if `encrypt` fails while writing the header (the sink
stops accepting bytes before the 13 header bytes fit), the bytes written to
the sink are exactly the accepted prefix of the header — no ephemeral key,
nonce, or ciphertext record bytes are ever written — but that prefix may be
nonempty, since the magic write can succeed before the version bytes fail. -/
theorem spec_c8 (box_ : List Nat → List Nat → List Nat → List Nat → List Nat)
    (src to_pk epk esk n0 : List Nat) (cap : Nat) (hcap : cap < 13) :
    encrypt_w box_ src to_pk epk esk n0 cap =
      .error ((write_header CIPHERTEXTHEADER).take cap) := by
  interval_cases cap <;> rfl

/-- Witness for C8 at a sink accepting 10 bytes: encrypt fails during header
writing and the sink holds exactly the first 10 header bytes. -/
theorem spec_c8_witness :
    encrypt_w mBox [] [] (List.replicate 32 0) [] (List.replicate 24 0) 10 =
      .error ((write_header CIPHERTEXTHEADER).take 10) :=
  spec_c8 mBox [] [] (List.replicate 32 0) [] (List.replicate 24 0) 10 (by omega)

/-- Counterexample to C8 as stated: with a sink accepting exactly 9 bytes the
magic write succeeds and the version write fails, so `encrypt` returns an
error from header writing with 9 bytes (the magic) already written — the
sink's byte sequence is not unchanged. -/
theorem spec_c8_counterexample :
    ¬ (∀ (box_ : List Nat → List Nat → List Nat → List Nat → List Nat)
        (src to_pk epk esk n0 : List Nat) (cap : Nat) (w : List Nat), cap < 13 →
        encrypt_w box_ src to_pk epk esk n0 cap = .error w → w = []) := by
  intro h
  have h9 : encrypt_w mBox [] [] [] [] [] 9 = .error magic_bytes := rfl
  have := h mBox [] [] [] [] [] 9 magic_bytes (by omega) h9
  exact absurd this (by decide)

-- ------------------------------------------------------------------
-- Claim C1
-- ------------------------------------------------------------------

lemma mBox_take_boxzero (to_pk esk : List Nat) :
    ∀ m nn : List Nat, m.length = BUF_SZ →
      (mBox m nn to_pk esk).take CRYPTO_BOX_BOXZEROBYTES =
        List.replicate CRYPTO_BOX_BOXZEROBYTES 0 := by
  intro m nn _
  rw [mBox]
  exact List.take_left' (by simp)

lemma mOpen_mBox (to_pk esk epk rsk : List Nat) :
    ∀ m nn : List Nat, m.length = BUF_SZ →
      m.take CRYPTO_BOX_ZEROBYTES = List.replicate CRYPTO_BOX_ZEROBYTES 0 →
      mOpen (mBox m nn to_pk esk) nn epk rsk = some m := by
  intro m nn _ htake
  have h16 : m.take CRYPTO_BOX_BOXZEROBYTES = List.replicate CRYPTO_BOX_BOXZEROBYTES 0 := by
    have ht : m.take CRYPTO_BOX_BOXZEROBYTES =
        (m.take CRYPTO_BOX_ZEROBYTES).take CRYPTO_BOX_BOXZEROBYTES := by
      rw [List.take_take,
        show CRYPTO_BOX_BOXZEROBYTES ⊓ CRYPTO_BOX_ZEROBYTES = CRYPTO_BOX_BOXZEROBYTES from by
          decide]
    rw [ht, htake, List.take_replicate,
      show CRYPTO_BOX_BOXZEROBYTES ⊓ CRYPTO_BOX_ZEROBYTES = CRYPTO_BOX_BOXZEROBYTES from by
        decide]
  rw [mBox, mOpen, if_pos (List.take_left' (by simp)), List.drop_left' (by simp)]
  rw [← h16, List.take_append_drop]

lemma decrypt_parse (open_ : List Nat → List Nat → List Nat → List Nat → Option (List Nat))
    (epk n0 body rsk : List Nat)
    (hepk : epk.length = CRYPTO_BOX_PUBLICKEYBYTES)
    (hn0 : n0.length = CRYPTO_BOX_NONCEBYTES) :
    decrypt open_ (write_header CIPHERTEXTHEADER ++ (epk ++ (n0 ++ body))) rsk =
      decrypt_loop open_ epk rsk body.length body n0 := by
  have h1 : ∀ b : List Nat, read_exact (epk ++ b) CRYPTO_BOX_PUBLICKEYBYTES = .ok (epk, b) :=
    fun b => read_exact_append epk b _ hepk
  have h2 : ∀ b : List Nat, read_exact (n0 ++ b) CRYPTO_BOX_NONCEBYTES = .ok (n0, b) :=
    fun b => read_exact_append n0 b _ hn0
  rw [decrypt, expect_header_write CIPHERTEXTHEADER (by decide)]
  simp only [h1, h2]

lemma decrypt_loop_seal
    (box_ : List Nat → List Nat → List Nat → List Nat → List Nat)
    (open_ : List Nat → List Nat → List Nat → List Nat → Option (List Nat))
    (to_pk epk esk rsk : List Nat)
    (Hlen : ∀ m nn : List Nat, m.length = BUF_SZ → (box_ m nn to_pk esk).length = BUF_SZ)
    (Hzero : ∀ m nn : List Nat, m.length = BUF_SZ →
      (box_ m nn to_pk esk).take CRYPTO_BOX_BOXZEROBYTES =
        List.replicate CRYPTO_BOX_BOXZEROBYTES 0)
    (Hopen : ∀ m nn : List Nat, m.length = BUF_SZ →
      m.take CRYPTO_BOX_ZEROBYTES = List.replicate CRYPTO_BOX_ZEROBYTES 0 →
      open_ (box_ m nn to_pk esk) nn epk rsk = some m) :
    ∀ (cs : List (List Nat)) (buf nonce : List Nat) (fuel : Nat),
    buf.length = BUF_SZ →
    buf.take CRYPTO_BOX_ZEROBYTES = List.replicate CRYPTO_BOX_ZEROBYTES 0 →
    (∀ c ∈ cs, 1 ≤ c.length ∧ c.length ≤ READ_SZ) →
    (sealChunks box_ to_pk esk cs buf nonce).length ≤ fuel →
    decrypt_loop open_ epk rsk fuel (sealChunks box_ to_pk esk cs buf nonce) nonce =
      .ok cs.flatten := by
  intro cs
  induction cs with
  | nil =>
    intro buf nonce fuel _ _ _ _
    cases fuel <;> simp [sealChunks, decrypt_loop]
  | cons c cs ih =>
    intro buf nonce fuel hbuf htake hcs hfuel
    have hRS : RECORD_SZ = 16402 := rfl
    have hc := hcs c (List.mem_cons_self c cs)
    have hb_len : (padRecord buf c).length = BUF_SZ := padRecord_length buf c hbuf hc.2
    have hb_take : (padRecord buf c).take CRYPTO_BOX_ZEROBYTES =
        List.replicate CRYPTO_BOX_ZEROBYTES 0 := by
      rw [padRecord_take buf c hbuf, htake]
    have hcip : (box_ (padRecord buf c) nonce to_pk esk).length = BUF_SZ := Hlen _ _ hb_len
    have hn : be_bytes_to_u16 ((padRecord buf c).getD CRYPTO_BOX_ZEROBYTES 0)
        ((padRecord buf c).getD (CRYPTO_BOX_ZEROBYTES + 1) 0) = c.length := by
      rw [padRecord_getD_hi buf c hbuf, padRecord_getD_lo buf c hbuf]
      have hcr : c.length ≤ READ_SZ := hc.2
      simp only [READ_SZ] at hcr
      simp only [u16_be_list, u16_be_bytes, be_bytes_to_u16, List.getD_cons_zero,
        List.getD_cons_succ]
      omega
    simp only [sealChunks] at hfuel ⊢
    have hrec_len : ((box_ (padRecord buf c) nonce to_pk esk).drop
        CRYPTO_BOX_BOXZEROBYTES).length = RECORD_SZ := by
      rw [List.length_drop, hcip]
    rw [List.length_append, hrec_len] at hfuel
    cases fuel with
    | zero => omega
    | succ f =>
      rw [decrypt_loop]
      rw [if_neg (by rw [List.length_append, hrec_len]; omega)]
      rw [if_neg (by rw [List.length_append, hrec_len]; omega)]
      rw [List.take_left' hrec_len]
      rw [show List.replicate CRYPTO_BOX_BOXZEROBYTES (0 : Nat) ++
          (box_ (padRecord buf c) nonce to_pk esk).drop CRYPTO_BOX_BOXZEROBYTES =
          box_ (padRecord buf c) nonce to_pk esk by
        rw [← Hzero _ _ hb_len]
        exact List.take_append_drop _ _]
      rw [Hopen _ _ hb_len hb_take]
      rw [List.drop_left' hrec_len]
      rw [ih (padRecord buf c) (nonce_inc nonce) f hb_len hb_take
        (fun x hx => hcs x (List.mem_cons_of_mem _ hx)) (by omega)]
      simp only [hn, padRecord_payload buf c hbuf, List.flatten_cons]

/-- Claim C1: running the decryption pipeline (modelled from the spec, with
the matching recipient key material) on the output of `encrypt` yields
exactly the source bytes, for every source — in particular for sources of
length 0, 1, one chunk capacity, and several capacities plus a remainder.
The provider contract for the matching keys is hypothesised: sealing
preserves the buffer length, the sealed buffer carries the provider's leading
zero bytes, and opening under the matching key material inverts sealing. -/
theorem spec_c1
    (box_ : List Nat → List Nat → List Nat → List Nat → List Nat)
    (open_ : List Nat → List Nat → List Nat → List Nat → Option (List Nat))
    (to_pk epk esk rsk n0 src : List Nat)
    (hepk : epk.length = CRYPTO_BOX_PUBLICKEYBYTES)
    (hn0 : n0.length = CRYPTO_BOX_NONCEBYTES)
    (Hlen : ∀ m nn : List Nat, m.length = BUF_SZ → (box_ m nn to_pk esk).length = BUF_SZ)
    (Hzero : ∀ m nn : List Nat, m.length = BUF_SZ →
      (box_ m nn to_pk esk).take CRYPTO_BOX_BOXZEROBYTES =
        List.replicate CRYPTO_BOX_BOXZEROBYTES 0)
    (Hopen : ∀ m nn : List Nat, m.length = BUF_SZ →
      m.take CRYPTO_BOX_ZEROBYTES = List.replicate CRYPTO_BOX_ZEROBYTES 0 →
      open_ (box_ m nn to_pk esk) nn epk rsk = some m) :
    decrypt open_ (encrypt box_ src to_pk epk esk n0) rsk = .ok src := by
  rw [encrypt, List.append_assoc, List.append_assoc]
  rw [decrypt_parse open_ epk n0 _ rsk hepk hn0]
  rw [decrypt_loop_seal box_ open_ to_pk epk esk rsk Hlen Hzero Hopen (chunksOf src)
    (List.replicate BUF_SZ 0) n0 _ buf0_length buf0_take
    (fun c hc => mem_chunksOf src c hc) (Nat.le_refl _)]
  rw [chunksOf_flatten]

/-- Witness for C1: the round trip through the model provider at the one-byte
source `[42]`. -/
theorem spec_c1_witness :
    decrypt mOpen (encrypt mBox [42] [] (List.replicate 32 0) [] (List.replicate 24 0))
      [] = .ok [42] :=
  spec_c1 mBox mOpen [] (List.replicate 32 0) [] [] (List.replicate 24 0) [42]
    (by simp) (by simp) (mBox_length_buf [] []) (mBox_take_boxzero [] [])
    (mOpen_mBox [] [] (List.replicate 32 0) [])

end Packnback
